import Mathlib

/-!
Verification of the RPC stream reader (`src/lib/nvim-rs/src/rpc/reader.rs`).

The development shallowly embeds:
* the `VecDeque<u8>` accumulation buffer as a pair of byte lists
  (the two contiguous segments returned by `as_slices`);
* `Cursor::read` (`impl io::Read for Cursor`) as a pure function from the
  deque, the current position and the destination-slice length to the bytes
  written and the new position;
* `RpcReader::fill_buffer` and `RpcReader::recv`, with the underlying
  asynchronous byte source modelled as a list of events (a chunk of bytes or
  an I/O failure) and the external `rmp_serde` decoder as an opaque function
  from the buffered bytes to a decode outcome.

Bytes are modelled as `Nat` (the code never performs byte arithmetic, so no
wrap-around modelling is needed).
-/

namespace RpcReaderModel

/-- The `VecDeque<u8>` accumulation buffer, exposed by `as_slices` as two
contiguous segments `front` and `back`; the logical content is
`front ++ back`. -/
structure Deque where
  front : List Nat
  back : List Nat
deriving DecidableEq, Repr

/-- Total number of stored bytes (`VecDeque::len`). -/
def Deque.len (d : Deque) : Nat := d.front.length + d.back.length

/-- The buffer viewed as one contiguous byte sequence. -/
def Deque.toList (d : Deque) : List Nat := d.front ++ d.back

/-- Translation of `Cursor::read` (reader.rs lines 23-50), clause by clause.
Input: the deque (`self.inner`), the current position (`self.pos`) and the
length of the destination slice `buf`.  Output: the bytes copied into
`buf[..read]` and the new position `self.pos + read`; the returned count is
the length of the first component.  The Rust code returns `Ok(read)`
unconditionally. -/
def cursorRead (d : Deque) (pos : Nat) (bufLen : Nat) : List Nat × Nat :=
  let start := min pos d.len
  -- Read from front slice.
  let fPart : List Nat :=
    if start < d.front.length then
      let f := d.front.drop start
      let n := min f.length bufLen
      f.take n
    else []
  let read1 := fPart.length
  -- If there's still space in buf, read from back slice.
  let bPart : List Nat :=
    if read1 < bufLen ∧ d.front.length ≤ start + read1 then
      let bStart := start + read1 - d.front.length
      if bStart < d.back.length then
        let b := d.back.drop bStart
        let n := min b.length (bufLen - read1)
        b.take n
      else []
    else []
  (fPart ++ bPart, pos + (fPart ++ bPart).length)

/-- Rust slice indexing `l[i..]`: defined exactly when `i ≤ l.len()`,
otherwise the program panics. -/
def sliceFrom (l : List Nat) (i : Nat) : Option (List Nat) :=
  if i ≤ l.length then some (l.drop i) else none

/-- Rust slice indexing `l[..n]`: defined exactly when `n ≤ l.len()`,
otherwise the program panics. -/
def sliceTo (l : List Nat) (n : Nat) : Option (List Nat) :=
  if n ≤ l.length then some (l.take n) else none

/-- The front-slice phase of `Cursor::read` with the slice indexing of the
source (`front[start..]`, `f[..n]`, `buf[..n]`) made explicit and checked. -/
def checkedFrontPart (front : List Nat) (start bufLen : Nat) :
    Option (List Nat) :=
  if start < front.length then
    (sliceFrom front start).bind fun f => sliceTo f (min f.length bufLen)
  else some []

/-- The back-slice phase of `Cursor::read` with the slice indexing of the
source (`back[b_start..]`, `b[..n]`, `buf[read..read + n]`) made explicit
and checked. -/
def checkedBackPart (back : List Nat) (frontLen start read1 bufLen : Nat) :
    Option (List Nat) :=
  if read1 < bufLen ∧ frontLen ≤ start + read1 then
    let bStart := start + read1 - frontLen
    if bStart < back.length then
      (sliceFrom back bStart).bind fun b => sliceTo b (min b.length (bufLen - read1))
    else some []
  else some []

/-- Checked variant of `Cursor::read`, with every slice-indexing operation of the source made
explicit and checked: `none` models a panic from an out-of-bounds slice
index.  `copy_from_slice` length agreement is by construction (both sides
are sliced to length `n`). -/
def cursorReadChecked (d : Deque) (pos : Nat) (bufLen : Nat) :
    Option (List Nat × Nat) :=
  let start := min pos d.len
  (checkedFrontPart d.front start bufLen).bind fun fPart =>
    (checkedBackPart d.back d.front.length start fPart.length bufLen).bind
      fun bPart =>
        some (fPart ++ bPart, pos + (fPart ++ bPart).length)

/-- Repeated sequential reads through one cursor: perform one
`Cursor::read` per requested length in `ks`, threading the position, and
concatenate the bytes produced. -/
def cursorReads (d : Deque) : List Nat → Nat → List Nat
  | [], _ => []
  | k :: ks, pos =>
    (cursorRead d pos k).1 ++ cursorReads d ks (cursorRead d pos k).2

/-- The `io::ErrorKind` values the reader distinguishes: `UnexpectedEof`
(constructed by `fill_buffer` for a zero-byte read) versus any other kind. -/
inductive ErrorKind where
  | unexpectedEof
  | other (code : Nat)
deriving DecidableEq, Repr

/-- An `io::Error`: a kind plus a message. -/
structure IOErrorM where
  kind : ErrorKind
  msg : String
deriving DecidableEq, Repr

/-- The error built by `fill_buffer` when `fill_buf` returns an empty
slice: `io::Error::new(io::ErrorKind::UnexpectedEof, "Read zero bytes")`. -/
def eofError : IOErrorM := ⟨ErrorKind.unexpectedEof, "Read zero bytes"⟩

/-- Translation of `ReadError` (reader.rs lines 53-57): `IOError` wraps a transport-level
`io::Error`; `RmpError` wraps a decode error, identified here by an opaque
cause code. -/
inductive ReadError where
  | ioError (e : IOErrorM)
  | rmpError (cause : Nat)
deriving DecidableEq, Repr

/-- One event produced by the underlying asynchronous byte source
(`self.reader.fill_buf()`): either the next available chunk of bytes or an
I/O failure.  An exhausted event list models end-of-stream, where `fill_buf`
returns an empty slice. -/
inductive SourceItem where
  | bytes (bs : List Nat)
  | ioErr (e : IOErrorM)
deriving DecidableEq, Repr

/-- Outcome of one invocation of the external `rmp_serde` decoder on a
fresh cursor over the buffered bytes (spec: the decoding library is
consumed as an opaque function): success with the decoded value and the
cursor's final position (bytes consumed), an incomplete-data failure
(`InvalidMarkerRead`/`InvalidDataRead` with kind `UnexpectedEof`), or any
other decode failure, identified by an opaque cause code. -/
inductive DecodeResult (M : Type) where
  | ok (val : M) (consumed : Nat)
  | incomplete
  | invalid (cause : Nat)
deriving DecidableEq, Repr

/-- The external decoder as a function of the bytes visible through a fresh
`Cursor` (i.e. the buffer's logical content). -/
def Decoder (M : Type) : Type := List Nat → DecodeResult M

/-- Translation of `RpcReader::fill_buffer` (reader.rs lines 91-108).  The buffer is the
logical content of the `VecDeque`; the source is the remaining event list.
`Ok([])` (an empty chunk, i.e. end-of-stream) yields the `UnexpectedEof`
transport error; a non-empty chunk is appended whole to the buffer's tail
(`self.buf.extend(bytes)`) and acknowledged (`consume_unpin(len)`, modelled
by moving past the event); an I/O failure is returned verbatim. -/
def fill_buffer (buf : List Nat) (src : List SourceItem) :
    Except ReadError (List Nat × List SourceItem) :=
  match src with
  | [] => .error (.ioError eofError)
  | .bytes [] :: _ => .error (.ioError eofError)
  | .bytes bs :: rest => .ok (buf ++ bs, rest)
  | .ioErr e :: _ => .error (.ioError e)

/-- Result of one `recv` call: the returned `Result<Message, ReadError>`,
the accumulation buffer and source after the call, and how many times
`fill_buffer` was invoked. -/
structure RecvOut (M : Type) where
  result : Except ReadError M
  buf : List Nat
  src : List SourceItem
  fetches : Nat
deriving Repr

/-- Translation of `RpcReader::recv` (reader.rs lines 110-135), with the decode-retry loop
unrolled as recursion on the source's event list (each iteration either
returns or consumes one source event).  Success drains the consumed bytes
from the buffer's head (`self.buf.drain(..cursor.pos)`); the
incomplete-data case invokes `fill_buffer` and retries with a fresh cursor
over the extended buffer; any other decode error is returned at once; a
`fill_buffer` error is propagated by `?`. -/
def recv {M : Type} (D : Decoder M) : List Nat → List SourceItem → RecvOut M
  | buf, src =>
    match D buf, src with
    | .ok m n, _ => ⟨.ok m, buf.drop n, src, 0⟩
    | .invalid c, _ => ⟨.error (.rmpError c), buf, src, 0⟩
    | .incomplete, [] => ⟨.error (.ioError eofError), buf, [], 1⟩
    | .incomplete, .bytes [] :: rest =>
      ⟨.error (.ioError eofError), buf, .bytes [] :: rest, 1⟩
    | .incomplete, .bytes (b :: bs) :: rest =>
      let r := recv D (buf ++ b :: bs) rest
      ⟨r.result, r.buf, r.src, r.fetches + 1⟩
    | .incomplete, .ioErr e :: rest =>
      ⟨.error (.ioError e), buf, .ioErr e :: rest, 1⟩

/-- Model of `n` sequential `recv` calls against one reader, threading the buffer
and the source; `some` collects the returned messages in call order, `none`
records that some call failed. -/
def recvList {M : Type} (D : Decoder M) :
    Nat → List Nat → List SourceItem → Option (List M)
  | 0, _, _ => some []
  | n + 1, buf, src =>
    match (recv D buf src).result with
    | .ok m => (recvList D n (recv D buf src).buf (recv D buf src).src).map
        (fun ms => m :: ms)
    | .error _ => none

/-- The self-delimiting-encoding contract between a message `m`, its
encoding `e` and the external decoder `D` (spec: the decoder either
produces one value and reports how many bytes it consumed, or fails with a
distinguishable incomplete error): from any byte sequence starting with
`e`, `D` decodes `m` consuming exactly `e.length` bytes, and on any proper
prefix of `e` it reports incomplete data. -/
def decodesExactly {M : Type} (D : Decoder M) (m : M) (e : List Nat) : Prop :=
  (∀ rest, D (e ++ rest) = .ok m e.length) ∧
  (∀ k, k < e.length → D (e.take k) = .incomplete)

/-- Modelled from the spec: the external MessagePack decoder (`rmp_serde`,
not part of this repository), restricted to the fragment the concrete
scenario needs — a two-element array (`0x92` fixarray header) of positive
fixints (bytes below `0x80`), decoded as the list of its elements. -/
def mpDecode : Decoder (List Nat)
  | [] => .incomplete
  | b :: rest =>
    if b = 0x92 then
      match rest with
      | [] => .incomplete
      | x :: rest2 =>
        if x < 0x80 then
          match rest2 with
          | [] => .incomplete
          | y :: _ => if y < 0x80 then .ok [x, y] 3 else .invalid 1
        else .invalid 0
    else .invalid 2

/-- The state of an `RpcReader<R>` (reader.rs lines 68-74): the wrapped
byte source and the accumulation buffer's logical content. -/
structure RpcReaderState (R : Type) where
  reader : R
  buf : List Nat

/-- Translation of `RpcReader::into_inner` (reader.rs lines 87-89): returns the wrapped
source; the accumulation buffer is dropped. -/
def into_inner {R : Type} (s : RpcReaderState R) : R := s.reader

end RpcReaderModel

/-!  Helper lemmas. -/

namespace RpcReaderModel

theorem take_min_length (l : List Nat) (m : Nat) :
    l.take (min l.length m) = l.take m := by
  rcases Nat.le_total l.length m with h | h
  · rw [Nat.min_eq_left h, List.take_length, List.take_of_length_le h]
  · rw [Nat.min_eq_right h]

theorem drop_min_length (l : List Nat) (n : Nat) :
    l.drop (min n l.length) = l.drop n := by
  rcases Nat.le_total n l.length with h | h
  · rw [Nat.min_eq_left h]
  · rw [Nat.min_eq_right h, List.drop_length, (List.drop_eq_nil_iff).mpr h]

theorem cursorRead_fst (d : Deque) (pos k : Nat) :
    (cursorRead d pos k).1 = (d.toList.drop (min pos d.len)).take k := by
  rcases d with ⟨front, back⟩
  simp only [cursorRead, Deque.len, Deque.toList]
  set start := min pos (front.length + back.length) with hstart
  have hsle : start ≤ front.length + back.length := by omega
  rw [List.drop_append_eq_append_drop]
  by_cases h1 : start < front.length
  · rw [if_pos h1]
    rw [take_min_length]
    have hdlen : (front.drop start).length = front.length - start := by simp
    have hsub : start - front.length = 0 := by omega
    rw [hsub, List.drop_zero]
    by_cases h2 : k ≤ front.length - start
    · have hr1 : (List.take k (front.drop start)).length = k := by simp; omega
      rw [if_neg (by rw [hr1]; omega)]
      rw [List.append_nil, List.take_append_of_le_length (by simp; omega)]
    · have hfa : List.take k (front.drop start) = front.drop start := by
        apply List.take_of_length_le; simp; omega
      rw [hfa, hdlen]
      rw [if_pos (by constructor <;> omega)]
      have hbs : start + (front.length - start) - front.length = 0 := by omega
      rw [hbs]
      by_cases h3 : 0 < back.length
      · rw [if_pos h3, List.drop_zero, take_min_length]
        rw [List.take_append_eq_append_take]
        have h4 : (front.drop start).length ≤ k := by simp; omega
        congr 1
        · exact (List.take_of_length_le h4).symm
        · simp
      · rw [if_neg h3]
        have : back = [] := by
          cases back with
          | nil => rfl
          | cons a l => simp at h3
        subst this
        simp
        omega
  · rw [if_neg h1]
    have hfd : front.drop start = [] := by
      apply List.drop_eq_nil_of_le; omega
    rw [hfd, List.nil_append, List.length_nil, Nat.add_zero]
    by_cases h2 : 0 < k ∧ front.length ≤ start
    · rw [if_pos h2]
      by_cases h3 : start - front.length < back.length
      · rw [if_pos h3, take_min_length]
        simp
      · rw [if_neg h3]
        have hbd : back.drop (start - front.length) = [] := by
          apply List.drop_eq_nil_of_le; omega
        rw [hbd]
        simp
    · rw [if_neg h2]
      have hk : k = 0 := by omega
      subst hk
      simp

theorem cursorRead_snd (d : Deque) (pos k : Nat) :
    (cursorRead d pos k).2 = pos + (cursorRead d pos k).1.length := rfl

theorem cursorRead_length (d : Deque) (pos k : Nat) :
    (cursorRead d pos k).1.length = min k (d.len - min pos d.len) := by
  rw [cursorRead_fst, List.length_take, List.length_drop]
  congr 1
  simp [Deque.len, Deque.toList]

theorem cursorReads_eq (d : Deque) (ks : List Nat) :
    ∀ pos, pos ≤ d.len → cursorReads d ks pos = (d.toList.drop pos).take ks.sum := by
  induction ks with
  | nil => intro pos _; simp [cursorReads]
  | cons k ks ih =>
    intro pos hpos
    have hlen := cursorRead_length d pos k
    have hmin : min pos d.len = pos := Nat.min_eq_left hpos
    rw [hmin] at hlen
    have hsnd := cursorRead_snd d pos k
    have hpos2 : (cursorRead d pos k).2 = min (pos + k) d.len := by omega
    simp only [cursorReads, List.sum_cons]
    rw [cursorRead_fst, hmin, ih _ (by omega), hpos2]
    have hdl : d.toList.length = d.len := by simp [Deque.len, Deque.toList]
    have : d.toList.drop (min (pos + k) d.len) = d.toList.drop (pos + k) := by
      rw [← hdl, drop_min_length]
    rw [this, List.take_add]
    congr 1
    rw [List.drop_drop]

theorem checkedFrontPart_eq (front : List Nat) (start bufLen : Nat) :
    checkedFrontPart front start bufLen =
      some (if start < front.length then
              (front.drop start).take (min (front.drop start).length bufLen)
            else []) := by
  by_cases h : start < front.length
  · simp [checkedFrontPart, sliceFrom, sliceTo, h, Nat.le_of_lt h]
  · simp [checkedFrontPart, h]

theorem checkedBackPart_eq (back : List Nat) (frontLen start read1 bufLen : Nat) :
    checkedBackPart back frontLen start read1 bufLen =
      some (if read1 < bufLen ∧ frontLen ≤ start + read1 then
              if start + read1 - frontLen < back.length then
                (back.drop (start + read1 - frontLen)).take
                  (min (back.drop (start + read1 - frontLen)).length (bufLen - read1))
              else []
            else []) := by
  by_cases h : read1 < bufLen ∧ frontLen ≤ start + read1
  · by_cases h2 : start + read1 - frontLen < back.length
    · simp [checkedBackPart, sliceFrom, sliceTo, h, h2, Nat.le_of_lt h2]
    · simp [checkedBackPart, h, h2]
  · simp [checkedBackPart, h]

theorem recv_of_ok {M : Type} (D : Decoder M) (buf : List Nat)
    (src : List SourceItem) (m : M) (n : Nat) (h : D buf = .ok m n) :
    recv D buf src = ⟨.ok m, buf.drop n, src, 0⟩ := by
  rw [recv.eq_def]; simp only [h]

theorem recv_of_invalid {M : Type} (D : Decoder M) (buf : List Nat)
    (src : List SourceItem) (c : Nat) (h : D buf = .invalid c) :
    recv D buf src = ⟨.error (.rmpError c), buf, src, 0⟩ := by
  rw [recv.eq_def]; simp only [h]

theorem recv_of_incomplete_bytes {M : Type} (D : Decoder M) (buf : List Nat)
    (b : Nat) (bs : List Nat) (rest : List SourceItem)
    (h : D buf = .incomplete) :
    recv D buf (SourceItem.bytes (b :: bs) :: rest) =
      ⟨(recv D (buf ++ b :: bs) rest).result, (recv D (buf ++ b :: bs) rest).buf,
       (recv D (buf ++ b :: bs) rest).src,
       (recv D (buf ++ b :: bs) rest).fetches + 1⟩ := by
  rw [recv.eq_def]; simp only [h]

theorem recv_of_incomplete_error {M : Type} (D : Decoder M) (buf : List Nat)
    (src : List SourceItem) (e : ReadError)
    (h : D buf = .incomplete) (hf : fill_buffer buf src = .error e) :
    recv D buf src = ⟨.error e, buf, src, 1⟩ := by
  match src with
  | [] =>
    simp only [fill_buffer] at hf
    rw [recv.eq_def]; simp only [h]
    cases hf; rfl
  | .bytes [] :: rest =>
    simp only [fill_buffer] at hf
    rw [recv.eq_def]; simp only [h]
    cases hf; rfl
  | .bytes (b :: bs) :: rest =>
    simp [fill_buffer] at hf
  | .ioErr e2 :: rest =>
    simp only [fill_buffer] at hf
    rw [recv.eq_def]; simp only [h]
    cases hf; rfl

end RpcReaderModel

namespace RpcReaderModel

theorem recv_prefix_ok {M : Type} (D : Decoder M) (m : M) (e : List Nat)
    (hD : decodesExactly D m e) :
    ∀ (chunks : List (List Nat)) (buf rest : List Nat),
      (∀ c ∈ chunks, c ≠ []) →
      buf ++ chunks.flatten = e ++ rest →
      ∃ chunks', chunks' <:+ chunks ∧
        (recv D buf (chunks.map SourceItem.bytes)).result = .ok m ∧
        (recv D buf (chunks.map SourceItem.bytes)).src =
          chunks'.map SourceItem.bytes ∧
        (recv D buf (chunks.map SourceItem.bytes)).buf ++ chunks'.flatten =
          rest := by
  intro chunks
  induction chunks with
  | nil =>
    intro buf rest _ hstream
    have hb : buf = e ++ rest := by simpa using hstream
    have hD2 : D buf = .ok m e.length := by rw [hb]; exact hD.1 rest
    rw [List.map_nil, recv_of_ok D buf [] m e.length hD2]
    refine ⟨[], List.suffix_refl _, rfl, rfl, ?_⟩
    rw [hb, List.flatten_nil, List.append_nil, List.drop_left]
  | cons c cs ih =>
    intro buf rest hne hstream
    by_cases hlen : e.length ≤ buf.length
    · have hbuf : buf = e ++ buf.drop e.length := by
        have h1 : (buf ++ (c :: cs).flatten).take e.length = e := by
          rw [hstream, List.take_append_of_le_length (Nat.le_refl _),
            List.take_length]
        rw [List.take_append_of_le_length hlen] at h1
        conv_lhs => rw [← List.take_append_drop e.length buf]
        rw [h1]
      have hD2 : D buf = .ok m e.length := by
        conv_lhs => rw [hbuf]
        exact hD.1 _
      rw [recv_of_ok D buf _ m e.length hD2]
      refine ⟨c :: cs, List.suffix_refl _, rfl, rfl, ?_⟩
      have h2 : (e ++ buf.drop e.length) ++ (c :: cs).flatten = e ++ rest := by
        rw [← hbuf]; exact hstream
      rw [List.append_assoc] at h2
      exact List.append_cancel_left h2
    · push_neg at hlen
      have hbufeq : buf = e.take buf.length := by
        have h1 : (buf ++ (c :: cs).flatten).take buf.length = buf := by
          rw [List.take_append_of_le_length (Nat.le_refl _), List.take_length]
        rw [hstream, List.take_append_of_le_length (Nat.le_of_lt hlen)] at h1
        exact h1.symm
      have hDb : D buf = .incomplete := by
        conv_lhs => rw [hbufeq]
        exact hD.2 _ hlen
      have hc : c ≠ [] := hne c (by simp)
      cases c with
      | nil => exact absurd rfl hc
      | cons b bs =>
        rw [List.map_cons, recv_of_incomplete_bytes D buf b bs _ hDb]
        have hne2 : ∀ x ∈ cs, x ≠ [] := fun x hx => hne x (by simp [hx])
        have hstream2 : (buf ++ b :: bs) ++ cs.flatten = e ++ rest := by
          rw [List.append_assoc, ← List.flatten_cons]
          exact hstream
        obtain ⟨chunks', hsuf, hres, hsrc, hbufr⟩ :=
          ih (buf ++ b :: bs) rest hne2 hstream2
        exact ⟨chunks', hsuf.trans (List.suffix_cons _ _), hres, hsrc, hbufr⟩

theorem recvList_messages {M : Type} (D : Decoder M) :
    ∀ (pairs : List (M × List Nat)),
      (∀ p ∈ pairs, decodesExactly D p.1 p.2) →
      ∀ (chunks : List (List Nat)) (buf : List Nat),
        (∀ c ∈ chunks, c ≠ []) →
        buf ++ chunks.flatten = (pairs.map Prod.snd).flatten →
        recvList D pairs.length buf (chunks.map SourceItem.bytes) =
          some (pairs.map Prod.fst) := by
  intro pairs
  induction pairs with
  | nil => intro _ chunks buf _ _; rfl
  | cons p ps ih =>
    intro hgood chunks buf hne hstream
    obtain ⟨m, e⟩ := p
    have hD : decodesExactly D m e := hgood (m, e) (by simp)
    have hstream2 : buf ++ chunks.flatten = e ++ (ps.map Prod.snd).flatten := by
      simpa using hstream
    obtain ⟨chunks', hsuf, hres, hsrc, hbufr⟩ :=
      recv_prefix_ok D m e hD chunks buf _ hne hstream2
    simp only [List.length_cons, recvList]
    rw [hres, hsrc]
    have hne2 : ∀ x ∈ chunks', x ≠ [] := fun x hx => hne x (hsuf.subset hx)
    have hgood2 : ∀ q ∈ ps, decodesExactly D q.1 q.2 :=
      fun q hq => hgood q (by simp [hq])
    rw [ih hgood2 chunks' _ hne2 hbufr]
    simp

theorem recv_rmpError_invalid {M : Type} (D : Decoder M) :
    ∀ (src : List SourceItem) (buf : List Nat) (c : Nat),
      (recv D buf src).result = .error (.rmpError c) →
      D (recv D buf src).buf = .invalid c := by
  intro src
  induction src with
  | nil =>
    intro buf c hres
    cases hD2 : D buf with
    | ok m n => rw [recv_of_ok D buf [] m n hD2] at hres; simp at hres
    | invalid c2 =>
      rw [recv_of_invalid D buf [] c2 hD2] at hres
      simp at hres
      rw [recv_of_invalid D buf [] c2 hD2]
      subst hres
      exact hD2
    | incomplete =>
      have h3 := recv_of_incomplete_error D buf [] (.ioError eofError) hD2
        (by simp [fill_buffer])
      rw [h3] at hres; simp at hres
  | cons item rest ih =>
    intro buf c hres
    cases hD2 : D buf with
    | ok m n => rw [recv_of_ok D buf _ m n hD2] at hres; simp at hres
    | invalid c2 =>
      rw [recv_of_invalid D buf _ c2 hD2] at hres
      simp at hres
      rw [recv_of_invalid D buf _ c2 hD2]
      subst hres
      exact hD2
    | incomplete =>
      cases item with
      | bytes bs =>
        cases bs with
        | nil =>
          have h3 := recv_of_incomplete_error D buf (SourceItem.bytes [] :: rest)
            (.ioError eofError) hD2 (by simp [fill_buffer])
          rw [h3] at hres; simp at hres
        | cons b bs2 =>
          rw [recv_of_incomplete_bytes D buf b bs2 rest hD2] at hres
          rw [recv_of_incomplete_bytes D buf b bs2 rest hD2]
          exact ih _ c hres
      | ioErr e2 =>
        have h3 := recv_of_incomplete_error D buf (SourceItem.ioErr e2 :: rest)
          (.ioError e2) hD2 (by simp [fill_buffer])
        rw [h3] at hres; simp at hres

theorem mpDecode_decodesExactly (x y : Nat) (hx : x < 128) (hy : y < 128) :
    decodesExactly mpDecode [x, y] [146, x, y] := by
  constructor
  · intro rest
    simp [mpDecode, hx, hy]
  · intro k hk
    simp only [List.length_cons, List.length_nil] at hk
    interval_cases k
    · simp [mpDecode]
    · simp [mpDecode]
    · simp [mpDecode, hx]

end RpcReaderModel

/-!  Claims. -/

namespace RpcReaderModel

/-- C1: for any sequence of N complete encoded messages concatenated into
one byte stream, and for any partition of that stream into non-empty chunks
delivered one at a time by the source, N sequential `recv` calls return
exactly those N messages, in the order their encodings appear in the
stream, with no message lost, duplicated, or reordered.  The external
decoder is assumed to satisfy the self-delimiting contract
`decodesExactly` for each message. -/
theorem claim_chunking_invariance {M : Type} (D : Decoder M)
    (pairs : List (M × List Nat))
    (hgood : ∀ p ∈ pairs, decodesExactly D p.1 p.2)
    (chunks : List (List Nat))
    (hne : ∀ c ∈ chunks, c ≠ [])
    (hpart : chunks.flatten = (pairs.map Prod.snd).flatten) :
    recvList D pairs.length [] (chunks.map SourceItem.bytes) =
      some (pairs.map Prod.fst) :=
  recvList_messages D pairs hgood chunks [] hne (by simpa using hpart)

/-- Witness for C1: two messages `[1, 2]` and `[3, 4]`, encodings
concatenated and re-partitioned into four chunks that straddle the message
boundary; two `recv` calls return both messages in order. -/
theorem claim_chunking_invariance_witness :
    recvList mpDecode 2 []
        ([[146], [1], [2, 146, 3], [4]].map SourceItem.bytes) =
      some [[1, 2], [3, 4]] :=
  claim_chunking_invariance mpDecode
    [([1, 2], [146, 1, 2]), ([3, 4], [146, 3, 4])]
    (by
      intro p hp
      simp only [List.mem_cons, List.not_mem_nil, or_false] at hp
      rcases hp with h | h <;> subst h <;>
        exact mpDecode_decodesExactly _ _ (by decide) (by decide))
    [[146], [1], [2, 146, 3], [4]]
    (by decide)
    (by decide)

/-- C2: for every `VecDeque` buffer, however its contents are split into a
front and back contiguous segment, for every starting cursor position and
requested read length, the bytes produced by `Cursor::read` equal the bytes
at the corresponding logical offsets of the buffer viewed as one contiguous
sequence; and repeated sequential reads through one cursor reproduce
exactly the bytes obtained by direct indexing. -/
theorem claim_split_buffer_read_equivalence :
    (∀ (d : Deque) (pos k : Nat),
      (cursorRead d pos k).1 = (d.toList.drop (min pos d.len)).take k) ∧
    (∀ (d : Deque) (ks : List Nat),
      cursorReads d ks 0 = d.toList.take ks.sum) := by
  refine ⟨cursorRead_fst, fun d ks => ?_⟩
  rw [cursorReads_eq d ks 0 (Nat.zero_le _), List.drop_zero]

/-- C3: when a decode attempt succeeds having consumed `n` bytes (the
cursor's final position), `recv` drains exactly `n` bytes from the head of
the accumulation buffer before returning the message: the remaining buffer
contents are exactly the bytes that followed the decoded encoding, the
source is untouched, and no fetch happens. -/
theorem claim_success_drains_exactly_consumed {M : Type} (D : Decoder M)
    (m : M) (e tail : List Nat) (src : List SourceItem)
    (h : D (e ++ tail) = .ok m e.length) :
    recv D (e ++ tail) src = ⟨.ok m, tail, src, 0⟩ := by
  rw [recv_of_ok D (e ++ tail) src m e.length h, List.drop_left]

/-- Witness for C3: a full encoding followed by two bytes of a next
message; `recv` returns the message and retains exactly the two bytes. -/
theorem claim_success_drains_exactly_consumed_witness :
    mpDecode ([146, 1, 2] ++ [9, 9]) = DecodeResult.ok [1, 2] 3 ∧
    recv mpDecode ([146, 1, 2] ++ [9, 9]) [] =
      ⟨.ok [1, 2], [9, 9], [], 0⟩ :=
  ⟨by decide,
   claim_success_drains_exactly_consumed mpDecode [1, 2] [146, 1, 2] [9, 9]
     [] (by decide)⟩

/-- C4: the incomplete-data condition is never surfaced to the caller of
`recv`: when the decoder reports incomplete data, `recv` does not return an
error and does not drain the buffer, but fetches the next chunk and retries
decoding with a fresh cursor at position 0 over the preserved bytes (first
conjunct, which also applies to the retries themselves, so there is no cap
on their number); and whenever `recv` returns a `Decode` error, the decoder
returned `invalid` — not `incomplete` — on the final buffer (second
conjunct). -/
theorem claim_incomplete_never_surfaced {M : Type} (D : Decoder M)
    (buf : List Nat) (b : Nat) (bs : List Nat) (src : List SourceItem)
    (hD : D buf = .incomplete) :
    recv D buf (SourceItem.bytes (b :: bs) :: src) =
      ⟨(recv D (buf ++ b :: bs) src).result, (recv D (buf ++ b :: bs) src).buf,
       (recv D (buf ++ b :: bs) src).src,
       (recv D (buf ++ b :: bs) src).fetches + 1⟩ ∧
    (∀ (buf2 : List Nat) (src2 : List SourceItem) (c : Nat),
      (recv D buf2 src2).result = .error (.rmpError c) →
      D (recv D buf2 src2).buf = .invalid c) :=
  ⟨recv_of_incomplete_bytes D buf b bs src hD,
   fun buf2 src2 c h => recv_rmpError_invalid D src2 buf2 c h⟩

/-- Witness for C4: the buffer holds only the array header; one chunk with
the two elements arrives, is fetched, and the retry decodes the message. -/
theorem claim_incomplete_never_surfaced_witness :
    mpDecode [146] = DecodeResult.incomplete ∧
    recv mpDecode [146] [SourceItem.bytes (1 :: [2])] =
      ⟨(recv mpDecode ([146] ++ 1 :: [2]) []).result,
       (recv mpDecode ([146] ++ 1 :: [2]) []).buf,
       (recv mpDecode ([146] ++ 1 :: [2]) []).src,
       (recv mpDecode ([146] ++ 1 :: [2]) []).fetches + 1⟩ :=
  ⟨by decide,
   (claim_incomplete_never_surfaced mpDecode [146] 1 [2] [] (by decide)).1⟩

/-- C5: on any decode error other than the incomplete case, `recv` returns
a `Decode` error immediately, without retrying (zero fetches) and without
modifying the accumulation buffer: the buffer (and the source) after the
failing call equal their contents at the start of the failing decode
attempt. -/
theorem claim_decode_error_fatal {M : Type} (D : Decoder M) (buf : List Nat)
    (src : List SourceItem) (c : Nat) (h : D buf = .invalid c) :
    recv D buf src = ⟨.error (.rmpError c), buf, src, 0⟩ :=
  recv_of_invalid D buf src c h

/-- Witness for C5: a byte that is not a valid two-element-array header
makes `recv` fail with the decode error, leaving buffer and source as they
were. -/
theorem claim_decode_error_fatal_witness :
    mpDecode [145] = DecodeResult.invalid 2 ∧
    recv mpDecode [145] [SourceItem.bytes [7]] =
      ⟨.error (.rmpError 2), [145], [SourceItem.bytes [7]], 0⟩ :=
  ⟨by decide,
   claim_decode_error_fatal mpDecode [145] [SourceItem.bytes [7]] 2 (by decide)⟩

/-- C6: `fill_buffer` appends every byte of a non-empty chunk in order to
the buffer's tail and acknowledges exactly that chunk to the source; an
empty chunk (or an exhausted source) yields the `UnexpectedEof` `Transport`
error rather than silent success; an I/O failure is returned verbatim as a
`Transport` error; a `Transport` error is distinct from any `Decode` error;
and `recv` propagates a `fill_buffer` error immediately, after exactly one
fetch attempt, with no retry. -/
theorem claim_fill_buffer_contract (buf bs : List Nat)
    (rest : List SourceItem) (e : IOErrorM) (hbs : bs ≠ []) :
    fill_buffer buf (SourceItem.bytes bs :: rest) = .ok (buf ++ bs, rest) ∧
    fill_buffer buf (SourceItem.bytes [] :: rest) = .error (.ioError eofError) ∧
    fill_buffer buf [] = .error (.ioError eofError) ∧
    fill_buffer buf (SourceItem.ioErr e :: rest) = .error (.ioError e) ∧
    (∀ c, ReadError.ioError e ≠ ReadError.rmpError c) ∧
    (∀ (M : Type) (D : Decoder M) (src : List SourceItem) (e2 : ReadError),
      D buf = DecodeResult.incomplete → fill_buffer buf src = .error e2 →
      recv D buf src = ⟨.error e2, buf, src, 1⟩) := by
  refine ⟨?_, rfl, rfl, rfl, fun c h => ReadError.noConfusion h,
    fun M D src e2 hD hf => recv_of_incomplete_error D buf src e2 hD hf⟩
  cases bs with
  | nil => exact absurd rfl hbs
  | cons b bs2 => rfl

/-- Witness for C6: a one-byte chunk is appended whole and acknowledged. -/
theorem claim_fill_buffer_contract_witness :
    ([2] : List Nat) ≠ [] ∧
    fill_buffer [1] [SourceItem.bytes [2]] = Except.ok ([1] ++ [2], []) :=
  ⟨by decide,
   (claim_fill_buffer_contract [1] [2] []
     ⟨ErrorKind.other 7, "io failure"⟩ (by decide)).1⟩

/-- C7: for every buffer state, cursor position (within the buffer) and
destination-slice length `k`, `Cursor::read` returns a count equal to the
minimum of `k` and the number of bytes remaining after the position,
advances the position by exactly that count (so the position is
monotonically non-decreasing and bounded by the buffer's length), and
returns a zero-byte count — not an error — when the position has reached
the end of the data.  The underlying buffer is immutable by construction in
this model (`cursorRead` returns only bytes and position). -/
theorem claim_cursor_read_count_contract (d : Deque) (pos k : Nat)
    (h : pos ≤ d.len) :
    (cursorRead d pos k).1.length = min k (d.len - pos) ∧
    (cursorRead d pos k).2 = pos + (cursorRead d pos k).1.length ∧
    pos ≤ (cursorRead d pos k).2 ∧
    (cursorRead d pos k).2 ≤ d.len ∧
    (pos = d.len → (cursorRead d pos k).1.length = 0) := by
  have hlen := cursorRead_length d pos k
  rw [Nat.min_eq_left h] at hlen
  have hsnd := cursorRead_snd d pos k
  exact ⟨hlen, hsnd, by omega, by omega, by omega⟩

/-- Witness for C7: a split buffer `[3, 4, 5] / [6]` read at position 2
with a 3-byte destination: 2 bytes are produced and the position advances
to the end. -/
theorem claim_cursor_read_count_contract_witness :
    2 ≤ (Deque.mk [3, 4, 5] [6]).len ∧
    ((cursorRead (Deque.mk [3, 4, 5] [6]) 2 3).1.length =
        min 3 ((Deque.mk [3, 4, 5] [6]).len - 2) ∧
      (cursorRead (Deque.mk [3, 4, 5] [6]) 2 3).2 =
        2 + (cursorRead (Deque.mk [3, 4, 5] [6]) 2 3).1.length ∧
      2 ≤ (cursorRead (Deque.mk [3, 4, 5] [6]) 2 3).2 ∧
      (cursorRead (Deque.mk [3, 4, 5] [6]) 2 3).2 ≤ (Deque.mk [3, 4, 5] [6]).len ∧
      (2 = (Deque.mk [3, 4, 5] [6]).len →
        (cursorRead (Deque.mk [3, 4, 5] [6]) 2 3).1.length = 0)) :=
  ⟨by decide, claim_cursor_read_count_contract (Deque.mk [3, 4, 5] [6]) 2 3 (by decide)⟩

/-- C8: when the encoding `[146, 1, 2]` of the two-element array `[1, 2]`
is delivered by the source as the first byte alone and then the remaining
bytes, a single `recv` call starting from an empty buffer invokes the fetch
operation exactly twice and returns a message equivalent to `[1, 2]`. -/
theorem claim_concrete_two_chunk_case :
    recv mpDecode [] [SourceItem.bytes [146], SourceItem.bytes [1, 2]] =
      ⟨.ok [1, 2], [], [], 2⟩ := rfl

/-- C9: `Cursor::read` is total and never fails: for every buffer state,
cursor position (including positions at or beyond the buffer's length,
which are clamped) and destination slice, the checked model — in which
every slice indexing of the source is an explicit bounds-checked step —
returns `some` result, equal to the unchecked model's; and at the end of
the data the read produces zero bytes rather than an error. -/
theorem claim_cursor_read_total_no_error (d : Deque) (pos k : Nat) :
    cursorReadChecked d pos k = some (cursorRead d pos k) ∧
    (d.len ≤ pos → (cursorRead d pos k).1 = []) := by
  constructor
  · simp only [cursorReadChecked, cursorRead, checkedFrontPart_eq,
      checkedBackPart_eq, Option.some_bind]
  · intro h
    rw [cursorRead_fst, Nat.min_eq_right h]
    have hdl : d.toList.length = d.len := by simp [Deque.len, Deque.toList]
    rw [← hdl, List.drop_length]
    simp

/-- Witness for C9: reading at a position beyond the buffer's length
succeeds with no panic and produces zero bytes. -/
theorem claim_cursor_read_total_no_error_witness :
    cursorReadChecked ⟨[3, 4, 5], [6]⟩ 7 3 =
      some (cursorRead ⟨[3, 4, 5], [6]⟩ 7 3) ∧
    (cursorRead (⟨[3, 4, 5], [6]⟩ : Deque) 7 3).1 = [] :=
  ⟨(claim_cursor_read_total_no_error ⟨[3, 4, 5], [6]⟩ 7 3).1,
   (claim_cursor_read_total_no_error ⟨[3, 4, 5], [6]⟩ 7 3).2 (by decide)⟩

/-- C10: reclaiming the underlying source via `into_inner` discards the
reader's accumulation buffer: the returned value is exactly the wrapped
source, and it is independent of the buffer's contents, so bytes fetched
but not yet consumed by a successful decode are not returned with the
source nor otherwise recoverable from it. -/
theorem claim_into_inner_discards_buffer {R : Type} (rd : R)
    (buf buf2 : List Nat) :
    into_inner ⟨rd, buf⟩ = rd ∧
    into_inner (⟨rd, buf⟩ : RpcReaderState R) = into_inner ⟨rd, buf2⟩ :=
  ⟨rfl, rfl⟩

end RpcReaderModel
